import Mathlib

/-!
# Verification of the trbs case-import and dependency-ordering pipeline

Shallow embedding of `src/vlinder/case_importer.py` (class `CaseImporter`),
the authoritative implementation of the case import pipeline described in the
specification (the copy under `model/core/case_importer.py` is an older
prototype lacking the numeric-literal seed test, the stable sort and the
self-reference correction that the specification describes).

Conventions of the embedding:
* a table cell that can hold either a name or a numeric literal is `Arg`;
* pandas dataframes become Lean lists of structures; row order is list order;
* the `while` loop of `_convert_to_ordered_dependencies` (whose termination
  is not guaranteed) is embedded with explicit fuel, returning `none` when
  the fuel runs out;
* Python exceptions become `Except` / explicit outcome values.
-/

namespace Trbs

/-- A cell of the `argument_1` / `argument_2` columns of the dependencies
table: either a name (a string) or a numeric literal. In Python a numeric
literal compares unequal to any destination name (a string), which the
`Arg.num` constructor captures. -/
inductive Arg where
  | name (s : String)
  | num (v : Int)
deriving DecidableEq, Repr

/-- Modelled from the spec: `check_numeric` from `vlinder.utils` (not under
`src/`) decides whether an argument cell is a numeric literal ("directly
resolvable, no further dependency needed"). -/
def check_numeric : Arg → Bool
  | .num _ => true
  | .name _ => false

/-- One row of the dependencies table: `destination`, `argument_1`,
`argument_2`, `operator` (the remaining template columns play no role in the
hierarchy computation). -/
structure DepRow where
  destination : String
  argument_1 : Arg
  argument_2 : Arg
  operator : String
deriving DecidableEq, Repr

/-- A dependency row together with its original (pandas) index and the
mutable `hierarchy` column added by `_convert_to_ordered_dependencies`. -/
structure SRow where
  idx : Nat
  row : DepRow
  hierarchy : Int
deriving DecidableEq, Repr

/-- Python `row[arg] in all_inputs`: membership of an argument cell in the
array of input names; a numeric cell never equals a name. -/
def argInInputs (all_inputs : List String) : Arg → Bool
  | .name s => all_inputs.contains s
  | .num _ => false

/-- `row[arg] in all_inputs or check_numeric(row[arg])` from
`_apply_first_level_hierarchy_to_row`. -/
def argKnown (all_inputs : List String) (a : Arg) : Bool :=
  argInInputs all_inputs a || check_numeric a

/-- `CaseImporter._apply_first_level_hierarchy_to_row`: hierarchy 1 when both
arguments are known inputs or numeric literals, else a provisional 2. -/
def apply_first_level_hierarchy_to_row (all_inputs : List String) (row : DepRow) : Int :=
  let args_with_known_value : Nat :=
    (if argKnown all_inputs row.argument_1 then 1 else 0) +
    (if argKnown all_inputs row.argument_2 then 1 else 0)
  if args_with_known_value == 2 then 1 else 2

/-- Python `dep["destination"] == row["argument_i"]`: equality between an
argument cell and a destination string. -/
def argEqStr : Arg → String → Bool
  | .name s, d => s == d
  | .num _, _ => false

/-- `CaseImporter._apply_second_level_hierarchy_to_row`: rows of hierarchy 1
are returned unchanged; otherwise the hierarchy is incremented once for every
row of `data` (the not-yet-finalized subset) whose destination equals one of
the two arguments (`elif` semantics: at most one increment per `dep`), then
decremented for each argument equal to the row's own destination, and finally
clamped from below by the value the row had on entry. -/
def apply_second_level_hierarchy_to_row (row : SRow) (data : List SRow) : Int :=
  if row.hierarchy == 1 then row.hierarchy
  else
    let hierarchy_start := row.hierarchy
    let h := data.foldl
      (fun h dep =>
        if argEqStr row.row.argument_1 dep.row.destination then h + 1
        else if argEqStr row.row.argument_2 dep.row.destination then h + 1
        else h)
      hierarchy_start
    let h := h -
      ((if argEqStr row.row.argument_1 row.row.destination then 1 else 0) +
       (if argEqStr row.row.argument_2 row.row.destination then 1 else 0))
    max h hierarchy_start

/-- `data.apply(self._apply_second_level_hierarchy_to_row, data=subdata, axis=1)`:
one recomputation sweep over the whole table against a fixed subset. -/
def refineStep (data : List SRow) (sub : List SRow) : List SRow :=
  data.map fun r => { r with hierarchy := apply_second_level_hierarchy_to_row r sub }

/-- Python `min(subdata["hierarchy"])` for the non-empty subset `s :: ss`. -/
def minH (s : SRow) (ss : List SRow) : Int :=
  ss.foldl (fun m r => min m r.hierarchy) s.hierarchy

/-- The `while not subdata.empty` loop of `_convert_to_ordered_dependencies`,
with fuel. Per iteration: recompute every row against the current subset,
then keep in the subset exactly the rows whose new hierarchy strictly
exceeds the minimum hierarchy the subset held before the recomputation
(pandas boolean indexing copies, so `subdata` retains the old values). -/
def refineLoop : Nat → List SRow → List SRow → Option (List SRow)
  | _, data, [] => some data
  | 0, _, _ :: _ => none
  | Nat.succ fuel, data, s :: ss =>
    let m := minH s ss
    let data2 := refineStep data (s :: ss)
    refineLoop fuel data2 (data2.filter fun r => decide (m < r.hierarchy))

/-- Assign original indices (starting at `start`) and first-level hierarchies
to the rows of a dependencies table:
`data["hierarchy"] = data.apply(self._apply_first_level_hierarchy_to_row, ...)`. -/
def seedRows (all_inputs : List String) : List DepRow → Nat → List SRow
  | [], _ => []
  | r :: rs, i => ⟨i, r, apply_first_level_hierarchy_to_row all_inputs r⟩ :: seedRows all_inputs rs (i + 1)

/-- Steps 2A and 2B of `_convert_to_ordered_dependencies`: seed pass followed
by the layered refinement loop (`subdata = data[data["hierarchy"] != 1]`
initially). Returns `none` when the loop does not finish within `fuel`
iterations. -/
def resolveHierarchies (all_inputs : List String) (rows : List DepRow) (fuel : Nat) :
    Option (List SRow) :=
  let data := seedRows all_inputs rows 0
  refineLoop fuel data (data.filter fun r => r.hierarchy != 1)

/-- Stable insertion by hierarchy: the new element goes before the first
element of greater-or-equal... precisely, before the first element it does
not strictly exceed, so that among equal hierarchies earlier-inserted (i.e.
originally earlier) elements stay first. -/
def hInsert (x : SRow) : List SRow → List SRow
  | [] => [x]
  | y :: ys => if x.hierarchy ≤ y.hierarchy then x :: y :: ys else y :: hInsert x ys

/-- `data.sort_values("hierarchy", kind="stable")`: a stable sort by the
`hierarchy` column. -/
def hSort : List SRow → List SRow
  | [] => []
  | x :: xs => hInsert x (hSort xs)

/-- `CaseImporter._convert_to_ordered_dependencies` up to the point where the
sorted arrays are stored in the input dictionary: the resulting row list, in
the order in which its columns (`destination`, ..., `hierarchy`,
`dependencies_order`) are materialized. -/
def convert_to_ordered_dependencies (all_inputs : List String) (rows : List DepRow)
    (fuel : Nat) : Option (List SRow) :=
  (resolveHierarchies all_inputs rows fuel).map hSort

/-! ### Basic lemmas about the hierarchy refinement -/

theorem apply_second_level_ge (r : SRow) (sub : List SRow) :
    r.hierarchy ≤ apply_second_level_hierarchy_to_row r sub := by
  unfold apply_second_level_hierarchy_to_row
  split
  · exact le_refl _
  · exact le_max_right _ _

theorem apply_second_level_one (r : SRow) (sub : List SRow) (h : r.hierarchy = 1) :
    apply_second_level_hierarchy_to_row r sub = 1 := by
  unfold apply_second_level_hierarchy_to_row
  simp [h]

theorem one_le_first_level (all_inputs : List String) (r : DepRow) :
    1 ≤ apply_first_level_hierarchy_to_row all_inputs r := by
  cases h1 : argKnown all_inputs r.argument_1 <;> cases h2 : argKnown all_inputs r.argument_2 <;>
    simp [apply_first_level_hierarchy_to_row, h1, h2]

theorem first_level_eq_one (all_inputs : List String) (r : DepRow)
    (h1 : argKnown all_inputs r.argument_1 = true)
    (h2 : argKnown all_inputs r.argument_2 = true) :
    apply_first_level_hierarchy_to_row all_inputs r = 1 := by
  unfold apply_first_level_hierarchy_to_row
  simp [h1, h2]

theorem refineStep_length (data sub : List SRow) :
    (refineStep data sub).length = data.length := by
  simp [refineStep]

theorem refineStep_getElem (data sub : List SRow) (i : Nat) (hi : i < data.length)
    (hj : i < (refineStep data sub).length) :
    (refineStep data sub)[i] =
      { data[i] with hierarchy := apply_second_level_hierarchy_to_row data[i] sub } := by
  simp [refineStep]

/-- The refinement loop preserves, row by row, the original index and row
contents; hierarchies never decrease, and hierarchy 1 is never changed. -/
theorem refineLoop_spec : ∀ (fuel : Nat) (data sub res : List SRow),
    refineLoop fuel data sub = some res →
    res.length = data.length ∧
    ∀ i (hi : i < data.length) (hj : i < res.length),
      res[i].idx = data[i].idx ∧ res[i].row = data[i].row ∧
      data[i].hierarchy ≤ res[i].hierarchy ∧
      (data[i].hierarchy = 1 → res[i].hierarchy = 1) := by
  intro fuel
  induction fuel with
  | zero =>
    intro data sub res h
    cases sub with
    | nil =>
      simp only [refineLoop] at h
      cases h
      exact ⟨rfl, fun i hi hj => ⟨rfl, rfl, le_refl _, fun h1 => h1⟩⟩
    | cons s ss => simp [refineLoop] at h
  | succ n ih =>
    intro data sub res h
    cases sub with
    | nil =>
      simp only [refineLoop] at h
      cases h
      exact ⟨rfl, fun i hi hj => ⟨rfl, rfl, le_refl _, fun h1 => h1⟩⟩
    | cons s ss =>
      simp only [refineLoop] at h
      obtain ⟨hlen, hrows⟩ := ih _ _ _ h
      have hlen2 : (refineStep data (s :: ss)).length = data.length := refineStep_length _ _
      refine ⟨hlen.trans hlen2, fun i hi hj => ?_⟩
      have hi2 : i < (refineStep data (s :: ss)).length := by omega
      obtain ⟨e1, e2, e3, e4⟩ := hrows i hi2 hj
      rw [refineStep_getElem data (s :: ss) i hi hi2] at e1 e2 e3 e4
      exact ⟨e1, e2, le_trans (apply_second_level_ge _ _) e3,
        fun h1 => e4 (apply_second_level_one _ _ h1)⟩

theorem seedRows_length (all_inputs : List String) :
    ∀ (rows : List DepRow) (start : Nat), (seedRows all_inputs rows start).length = rows.length
  | [], _ => rfl
  | _ :: rs, start => by simp [seedRows, seedRows_length all_inputs rs (start + 1)]

theorem seedRows_getElem (all_inputs : List String) :
    ∀ (rows : List DepRow) (start i : Nat) (hi : i < rows.length)
      (hj : i < (seedRows all_inputs rows start).length),
      (seedRows all_inputs rows start)[i] =
        ⟨start + i, rows[i], apply_first_level_hierarchy_to_row all_inputs rows[i]⟩
  | r :: rs, start, 0, _, _ => by simp [seedRows]
  | r :: rs, start, Nat.succ i, hi, hj => by
    have hi' : i < rs.length := by simpa using hi
    have hj' : i < (seedRows all_inputs rs (start + 1)).length := by
      rw [seedRows_length]; exact hi'
    simp only [seedRows, List.getElem_cons_succ]
    rw [seedRows_getElem all_inputs rs (start + 1) i hi' hj']
    congr 1
    omega

/-- Row-by-row description of `resolveHierarchies`: when the loop finishes,
row `i` of the result carries original index `i` and the original row, its
hierarchy is at least 1, and it is exactly 1 when both arguments are known
inputs or numeric literals. -/
theorem resolveHierarchies_spec (all_inputs : List String) (rows : List DepRow) (fuel : Nat)
    (res : List SRow) (h : resolveHierarchies all_inputs rows fuel = some res) :
    res.length = rows.length ∧
    ∀ i (hi : i < rows.length) (hj : i < res.length),
      res[i].idx = i ∧ res[i].row = rows[i] ∧ 1 ≤ res[i].hierarchy ∧
      (argKnown all_inputs rows[i].argument_1 = true →
       argKnown all_inputs rows[i].argument_2 = true → res[i].hierarchy = 1) := by
  unfold resolveHierarchies at h
  obtain ⟨hlen, hrows⟩ := refineLoop_spec _ _ _ _ h
  have hslen : (seedRows all_inputs rows 0).length = rows.length := seedRows_length _ _ _
  refine ⟨hlen.trans hslen, fun i hi hj => ?_⟩
  have hi2 : i < (seedRows all_inputs rows 0).length := by omega
  obtain ⟨e1, e2, e3, e4⟩ := hrows i hi2 hj
  rw [seedRows_getElem all_inputs rows 0 i hi hi2] at e1 e2 e3 e4
  simp only at e1 e2 e3 e4
  refine ⟨by simpa using e1, e2, le_trans (one_le_first_level _ _) e3, fun k1 k2 => ?_⟩
  exact e4 (first_level_eq_one _ _ k1 k2)

/-! ### Lemmas about the stable sort by hierarchy -/

/-- Strict lexicographic order on (hierarchy, original index): what a stable
sort by hierarchy produces from an index-ordered list. -/
def hierLex (a b : SRow) : Prop :=
  a.hierarchy < b.hierarchy ∨ (a.hierarchy = b.hierarchy ∧ a.idx < b.idx)

theorem mem_hInsert {a x : SRow} : ∀ {l : List SRow}, a ∈ hInsert x l ↔ a = x ∨ a ∈ l
  | [] => by simp [hInsert]
  | y :: ys => by
    unfold hInsert
    split
    · simp
    · rw [List.mem_cons, List.mem_cons, mem_hInsert]
      tauto

theorem mem_hSort {a : SRow} : ∀ {l : List SRow}, a ∈ hSort l ↔ a ∈ l
  | [] => Iff.rfl
  | x :: xs => by
    unfold hSort
    rw [mem_hInsert, List.mem_cons, mem_hSort]

theorem hierLex_of_le_of_lex {x y z : SRow} (hxy : x.hierarchy ≤ y.hierarchy)
    (hidx : x.idx < z.idx) (h : y.hierarchy ≤ z.hierarchy) : hierLex x z := by
  rcases lt_or_eq_of_le (le_trans hxy h) with hlt | heq
  · exact Or.inl hlt
  · exact Or.inr ⟨heq, hidx⟩

theorem hInsert_pairwise {x : SRow} :
    ∀ {l : List SRow}, l.Pairwise hierLex → (∀ y ∈ l, x.idx < y.idx) →
      (hInsert x l).Pairwise hierLex
  | [], _, _ => List.pairwise_singleton _ _
  | y :: ys, hl, hx => by
    unfold hInsert
    rw [List.pairwise_cons] at hl
    obtain ⟨hyall, hys⟩ := hl
    split
    · rename_i hxy
      rw [List.pairwise_cons]
      refine ⟨fun z hz => ?_, List.pairwise_cons.mpr ⟨hyall, hys⟩⟩
      rcases List.mem_cons.mp hz with rfl | hz
      · exact hierLex_of_le_of_lex (le_refl _) (hx z (List.mem_cons_self _ _)) hxy
      · have hyz : hierLex y z := hyall z hz
        have hyzle : y.hierarchy ≤ z.hierarchy := by
          rcases hyz with h | ⟨h, _⟩
          · exact le_of_lt h
          · exact le_of_eq h
        exact hierLex_of_le_of_lex hxy (hx z (List.mem_cons_of_mem _ hz)) hyzle
    · rename_i hxy
      rw [List.pairwise_cons]
      refine ⟨fun z hz => ?_, hInsert_pairwise hys (fun z hz => hx z (List.mem_cons_of_mem _ hz))⟩
      rcases mem_hInsert.mp hz with rfl | hz
      · exact Or.inl (by omega)
      · exact hyall z hz

/-- A stable sort by hierarchy of an index-increasing list is ordered
lexicographically by (hierarchy, original index). -/
theorem hSort_pairwise :
    ∀ {l : List SRow}, l.Pairwise (fun a b => a.idx < b.idx) → (hSort l).Pairwise hierLex
  | [], _ => List.Pairwise.nil
  | x :: xs, h => by
    unfold hSort
    rw [List.pairwise_cons] at h
    exact hInsert_pairwise (hSort_pairwise h.2) (fun y hy => h.1 y (mem_hSort.mp hy))

/-- The rows produced by `resolveHierarchies` carry strictly increasing
original indices. -/
theorem resolveHierarchies_idx_increasing (all_inputs : List String) (rows : List DepRow)
    (fuel : Nat) (res : List SRow) (h : resolveHierarchies all_inputs rows fuel = some res) :
    res.Pairwise (fun a b => a.idx < b.idx) := by
  obtain ⟨hlen, hrows⟩ := resolveHierarchies_spec all_inputs rows fuel res h
  rw [List.pairwise_iff_getElem]
  intro i j hi hj hij
  have hi' : i < rows.length := by omega
  have hj' : j < rows.length := by omega
  rw [(hrows i hi' hi).1, (hrows j hj' hj).1]
  exact hij

/-! ### Concrete dependency tables used by the claim theorems -/

/-- A dependency chain A -> B -> C: A resolvable from inputs, B references
the destination of A, C references the destination of B. -/
def chainInputs : List String := ["x"]

def chainA : DepRow := ⟨"A", .name "x", .num 1, "+"⟩

def chainB : DepRow := ⟨"B", .name "A", .num 2, "+"⟩

def chainC : DepRow := ⟨"C", .name "B", .num 3, "+"⟩

def chainRows : List DepRow := [chainA, chainB, chainC]

def chainOut : List SRow := [⟨0, chainA, 1⟩, ⟨1, chainB, 2⟩, ⟨2, chainC, 3⟩]

/-- A table on which the resolver completes although the strict-exceeds
property fails: the fixed input "X" is also the destination of row `cexS`,
so row `cexR`, whose `argument_1` is "X", is seeded at hierarchy 1 (both its
arguments are directly resolvable) even though it references the destination
of `cexS`, which ends at hierarchy 2. -/
def cexInputs : List String := ["X"]

def cexQ : DepRow := ⟨"Y", .num 1, .num 2, "+"⟩

def cexS : DepRow := ⟨"X", .name "Y", .num 0, "+"⟩

def cexR : DepRow := ⟨"W", .name "X", .num 0, "+"⟩

def cexRows : List DepRow := [cexQ, cexS, cexR]

def cexOut : List SRow := [⟨0, cexQ, 1⟩, ⟨1, cexS, 2⟩, ⟨2, cexR, 1⟩]

/-! ### Claim C1 -/

/-- C1 (counterexample): the hierarchy resolver completes on `cexRows`, row
`cexR` (index 2) references the destination of row `cexS` (index 1) as its
`argument_1`, yet the final hierarchy of `cexR` (1) does not strictly exceed
the final hierarchy of `cexS` (2): the claimed strict-exceeds property fails
because an argument can be a known input name and simultaneously another
row's destination. -/
theorem C1_counterexample :
    resolveHierarchies cexInputs cexRows 2 = some cexOut ∧
    argEqStr cexR.argument_1 cexS.destination = true ∧
    ¬ ((cexOut.get ⟨1, by decide⟩).hierarchy < (cexOut.get ⟨2, by decide⟩).hierarchy) :=
  ⟨by decide, by decide, by decide⟩

/-- C1 (amended): whenever the hierarchy resolver completes, every row is
assigned an integer hierarchy at least 1, rows both of whose arguments are
directly resolvable (known inputs or numeric literals) receive the minimum
value 1, and on the three-row chain A, B, C the final hierarchies are
A = 1, B = 2, C = 3; the general strict-exceeds property is dropped (see the
counterexample). -/
theorem C1_hierarchy_bounds_and_chain (all_inputs : List String) (rows : List DepRow)
    (fuel : Nat) (res : List SRow) (i : Nat)
    (h : resolveHierarchies all_inputs rows fuel = some res)
    (hi : i < rows.length) (hj : i < res.length) :
    (1 ≤ res[i].hierarchy ∧
      (argKnown all_inputs rows[i].argument_1 = true →
       argKnown all_inputs rows[i].argument_2 = true → res[i].hierarchy = 1)) ∧
    resolveHierarchies chainInputs chainRows 4 = some chainOut := by
  obtain ⟨hlen, hrows⟩ := resolveHierarchies_spec all_inputs rows fuel res h
  obtain ⟨_, _, e3, e4⟩ := hrows i hi hj
  exact ⟨⟨e3, e4⟩, by decide⟩

/-- C1 (witness): the amended theorem applied to the concrete chain table at
row index 0. -/
theorem C1_hierarchy_bounds_and_chain_witness :
    resolveHierarchies chainInputs chainRows 4 = some chainOut ∧
    0 < chainRows.length ∧ 0 < chainOut.length ∧
    ((1 ≤ chainOut[0].hierarchy ∧
      (argKnown chainInputs chainRows[0].argument_1 = true →
       argKnown chainInputs chainRows[0].argument_2 = true → chainOut[0].hierarchy = 1)) ∧
     resolveHierarchies chainInputs chainRows 4 = some chainOut) :=
  ⟨by decide, by decide, by decide,
    C1_hierarchy_bounds_and_chain chainInputs chainRows 4 chainOut 0 (by decide) (by decide)
      (by decide)⟩

/-! ### Claim C2 -/

/-- C2: for every dependency row both of whose arguments are each either a
known input name or a numeric literal, the seed pass assigns hierarchy 1,
and when the refinement loop completes the row still has hierarchy 1. -/
theorem C2_seed_one_preserved (all_inputs : List String) (rows : List DepRow)
    (fuel : Nat) (res : List SRow) (i : Nat)
    (h : resolveHierarchies all_inputs rows fuel = some res)
    (hi : i < rows.length)
    (hk1 : argKnown all_inputs rows[i].argument_1 = true)
    (hk2 : argKnown all_inputs rows[i].argument_2 = true) :
    apply_first_level_hierarchy_to_row all_inputs rows[i] = 1 ∧
    ∃ hj : i < res.length, res[i].row = rows[i] ∧ res[i].hierarchy = 1 := by
  obtain ⟨hlen, hrows⟩ := resolveHierarchies_spec all_inputs rows fuel res h
  have hj : i < res.length := by omega
  obtain ⟨_, e2, _, e4⟩ := hrows i hi hj
  exact ⟨first_level_eq_one _ _ hk1 hk2, hj, e2, e4 hk1 hk2⟩

/-- C2 (witness): the theorem applied to the chain table at row index 0,
whose two arguments are the fixed input "x" and a numeric literal. -/
theorem C2_seed_one_preserved_witness :
    resolveHierarchies chainInputs chainRows 4 = some chainOut ∧
    0 < chainRows.length ∧
    argKnown chainInputs chainRows[0].argument_1 = true ∧
    argKnown chainInputs chainRows[0].argument_2 = true ∧
    (apply_first_level_hierarchy_to_row chainInputs chainRows[0] = 1 ∧
     ∃ hj : 0 < chainOut.length, chainOut[0].row = chainRows[0] ∧ chainOut[0].hierarchy = 1) :=
  ⟨by decide, by decide, by decide, by decide,
    C2_seed_one_preserved chainInputs chainRows 4 chainOut 0 (by decide) (by decide) (by decide)
      (by decide)⟩

/-! ### Claim C3 -/

/-- C3: whenever `_convert_to_ordered_dependencies` completes, the resulting
dependency rows (whose columns are materialized into the input dictionary)
are sorted by non-decreasing hierarchy, and rows sharing a hierarchy appear
in strictly increasing original declaration order (the sort is stable). -/
theorem C3_sorted_stable (all_inputs : List String) (rows : List DepRow) (fuel : Nat)
    (out : List SRow) (h : convert_to_ordered_dependencies all_inputs rows fuel = some out) :
    out.Pairwise (fun a b => a.hierarchy ≤ b.hierarchy) ∧
    out.Pairwise (fun a b => a.hierarchy = b.hierarchy → a.idx < b.idx) := by
  unfold convert_to_ordered_dependencies at h
  cases hres : resolveHierarchies all_inputs rows fuel with
  | none => rw [hres] at h; simp at h
  | some res =>
    rw [hres] at h
    simp only [Option.map_some'] at h
    cases h
    have hlex := hSort_pairwise (resolveHierarchies_idx_increasing _ _ _ _ hres)
    constructor
    · refine hlex.imp fun h => ?_
      rcases h with h | ⟨h, _⟩
      · exact le_of_lt h
      · exact le_of_eq h
    · refine hlex.imp fun h => ?_
      rcases h with h | ⟨_, h2⟩
      · intro he; omega
      · intro _; exact h2

/-- C3 (witness): the theorem applied to the chain table. -/
theorem C3_sorted_stable_witness :
    convert_to_ordered_dependencies chainInputs chainRows 4 = some chainOut ∧
    (chainOut.Pairwise (fun a b => a.hierarchy ≤ b.hierarchy) ∧
     chainOut.Pairwise (fun a b => a.hierarchy = b.hierarchy → a.idx < b.idx)) :=
  ⟨by decide, C3_sorted_stable chainInputs chainRows 4 chainOut (by decide)⟩

/-! ### Claim C4 -/

/-- The claimed no-true-cycle hypothesis, formalized from the claim's own
words: an argument is eventually resolvable from seed rows and inputs when it
is a numeric literal, a known input name, or the destination of a row whose
arguments are both eventually resolvable. -/
inductive ArgResolvable (inputs : List String) (rows : List DepRow) : Arg → Prop where
  | num (v : Int) : ArgResolvable inputs rows (.num v)
  | input (s : String) (hs : s ∈ inputs) : ArgResolvable inputs rows (.name s)
  | dest (r : DepRow) (hr : r ∈ rows) (h1 : ArgResolvable inputs rows r.argument_1)
      (h2 : ArgResolvable inputs rows r.argument_2) :
      ArgResolvable inputs rows (.name r.destination)

/-- The refinement loop exhausts any amount of fuel on this table: the
Python `while` loop never terminates. -/
def loopsForever (inputs : List String) (rows : List DepRow) : Prop :=
  ∀ fuel, resolveHierarchies inputs rows fuel = none

/-- A table on which the loop diverges although every row is eventually
resolvable: the fixed input "I" seeds `c4R1`, whose destination "X" is
duplicated by `c4R2`; rows `c4R2` and `c4R3` reference each other's
destinations by name. -/
def c4Inputs : List String := ["I"]

def c4R1 : DepRow := ⟨"X", .name "I", .num 0, "+"⟩

def c4R2 : DepRow := ⟨"X", .name "Y", .num 0, "+"⟩

def c4R3 : DepRow := ⟨"Y", .name "X", .num 0, "+"⟩

def c4Rows : List DepRow := [c4R1, c4R2, c4R3]

theorem c4_loop_diverges : ∀ (fuel : Nat) (h : Int), 2 ≤ h →
    refineLoop fuel [⟨0, c4R1, 1⟩, ⟨1, c4R2, h⟩, ⟨2, c4R3, h⟩]
      [⟨1, c4R2, h⟩, ⟨2, c4R3, h⟩] = none := by
  intro fuel
  induction fuel with
  | zero => intro h hh; rfl
  | succ n ih =>
    intro h hh
    have hb : ((h : Int) == 1) = false := beq_eq_false_iff_ne.mpr (by omega)
    have ne1 : ("Y" : String) ≠ "X" := by decide
    have ne2 : ("X" : String) ≠ "Y" := by decide
    have e1 : apply_second_level_hierarchy_to_row ⟨0, c4R1, 1⟩
        [⟨1, c4R2, h⟩, ⟨2, c4R3, h⟩] = 1 := apply_second_level_one _ _ rfl
    have e2 : apply_second_level_hierarchy_to_row ⟨1, c4R2, h⟩
        [⟨1, c4R2, h⟩, ⟨2, c4R3, h⟩] = h + 1 := by
      simp [apply_second_level_hierarchy_to_row, hb, c4R2, c4R3, argEqStr, ne1]
    have e3 : apply_second_level_hierarchy_to_row ⟨2, c4R3, h⟩
        [⟨1, c4R2, h⟩, ⟨2, c4R3, h⟩] = h + 1 := by
      simp [apply_second_level_hierarchy_to_row, hb, c4R2, c4R3, argEqStr, ne2]
    have hstep : refineStep [⟨0, c4R1, 1⟩, ⟨1, c4R2, h⟩, ⟨2, c4R3, h⟩]
        [⟨1, c4R2, h⟩, ⟨2, c4R3, h⟩] =
        [⟨0, c4R1, 1⟩, ⟨1, c4R2, h + 1⟩, ⟨2, c4R3, h + 1⟩] := by
      simp [refineStep, e1, e2, e3]
    have hmin : minH (⟨1, c4R2, h⟩ : SRow) [⟨2, c4R3, h⟩] = h := by
      simp [minH]
    have d1 : decide ((h : Int) < 1) = false := decide_eq_false (by omega)
    have d2 : decide ((h : Int) < h + 1) = true := decide_eq_true (by omega)
    show refineLoop (n + 1) _ _ = none
    rw [refineLoop, hmin, hstep]
    have hfil : [(⟨0, c4R1, 1⟩ : SRow), ⟨1, c4R2, h + 1⟩, ⟨2, c4R3, h + 1⟩].filter
        (fun r => decide (h < r.hierarchy)) = [⟨1, c4R2, h + 1⟩, ⟨2, c4R3, h + 1⟩] := by
      simp [List.filter_cons, d1, d2]
    rw [hfil]
    exact ih (h + 1) (by omega)

theorem c4_resolve_none (fuel : Nat) : resolveHierarchies c4Inputs c4Rows fuel = none := by
  have hseed : seedRows c4Inputs c4Rows 0 =
      [⟨0, c4R1, 1⟩, ⟨1, c4R2, 2⟩, ⟨2, c4R3, 2⟩] := by decide
  have hfil : [(⟨0, c4R1, 1⟩ : SRow), ⟨1, c4R2, 2⟩, ⟨2, c4R3, 2⟩].filter
      (fun r => r.hierarchy != 1) = [⟨1, c4R2, 2⟩, ⟨2, c4R3, 2⟩] := by decide
  show refineLoop fuel (seedRows c4Inputs c4Rows 0)
      ((seedRows c4Inputs c4Rows 0).filter (fun r => r.hierarchy != 1)) = none
  rw [hseed, hfil]
  exact c4_loop_diverges fuel 2 (by omega)

/-- C4 (counterexample): on the table `c4Rows` every argument of every row
is eventually resolvable from seed rows and inputs (there is no true cycle
in the sense stated by the claim), yet the layered refinement loop never
terminates: the two rows `c4R2` and `c4R3` reference each other's
destinations by name, each being resolvable only through the duplicated
destination "X" of the seed row `c4R1`. -/
theorem C4_counterexample :
    ArgResolvable c4Inputs c4Rows c4R1.argument_1 ∧
    ArgResolvable c4Inputs c4Rows c4R1.argument_2 ∧
    ArgResolvable c4Inputs c4Rows c4R2.argument_1 ∧
    ArgResolvable c4Inputs c4Rows c4R2.argument_2 ∧
    ArgResolvable c4Inputs c4Rows c4R3.argument_1 ∧
    ArgResolvable c4Inputs c4Rows c4R3.argument_2 ∧
    loopsForever c4Inputs c4Rows := by
  have hR1 : c4R1 ∈ c4Rows := by simp [c4Rows]
  have hR3 : c4R3 ∈ c4Rows := by simp [c4Rows]
  have hI : ArgResolvable c4Inputs c4Rows (.name "I") :=
    ArgResolvable.input "I" (by simp [c4Inputs])
  have hX : ArgResolvable c4Inputs c4Rows (.name "X") :=
    ArgResolvable.dest c4R1 hR1 hI (ArgResolvable.num 0)
  have hY : ArgResolvable c4Inputs c4Rows (.name "Y") :=
    ArgResolvable.dest c4R3 hR3 hX (ArgResolvable.num 0)
  exact ⟨hI, ArgResolvable.num 0, hY, ArgResolvable.num 0, hX, ArgResolvable.num 0,
    c4_resolve_none⟩

/-- C4 (amended): each iteration of the refinement loop never decreases any
row's hierarchy, and the next not-yet-finalized subset excludes every row
whose recomputed hierarchy does not exceed the minimum hierarchy the subset
held before the recomputation (in particular every row whose recomputed
hierarchy equals that minimum is finalized); the loop then continues on the
remaining subset. The claimed termination under the eventual-resolvability
hypothesis is dropped (see the counterexample). -/
theorem C4_iteration_removes_minimum (fuel : Nat) (data : List SRow) (s : SRow)
    (ss : List SRow) (r : SRow) (_hr : r ∈ refineStep data (s :: ss))
    (hmin : r.hierarchy ≤ minH s ss) :
    r ∉ (refineStep data (s :: ss)).filter (fun q => decide (minH s ss < q.hierarchy)) ∧
    (∀ i (hi : i < data.length) (hj : i < (refineStep data (s :: ss)).length),
        data[i].hierarchy ≤ (refineStep data (s :: ss))[i].hierarchy) ∧
    refineLoop (fuel + 1) data (s :: ss) =
      refineLoop fuel (refineStep data (s :: ss))
        ((refineStep data (s :: ss)).filter (fun q => decide (minH s ss < q.hierarchy))) := by
  refine ⟨?_, ?_, rfl⟩
  · intro hmem
    rw [List.mem_filter] at hmem
    have := of_decide_eq_true hmem.2
    omega
  · intro i hi hj
    rw [refineStep_getElem data (s :: ss) i hi hj]
    exact apply_second_level_ge _ _

/-! ### Table loading, column checks and error routing -/

/-- The Python exceptions that `pd.read_csv` / `read_json` / `read_excel`
can raise: `ValueError` (e.g. a missing sheet in a workbook), a
`FileNotFoundError` (a missing per-table file), or any other I/O error. -/
inductive PyError where
  | valueError (msg : String)
  | fileNotFound (msg : String)
  | otherError (msg : String)
deriving DecidableEq, Repr

/-- The errors the importer can signal. `TemplateError` messages carrying
name sets are modelled structurally by the constructor holding the offending
table/column/name data; a Python exception propagating unchanged is wrapped
as `py`. -/
inductive ImpError where
  | missingSheet (table : String)
  | missingColumns (table : String) (cols : List String)
  | mandatoryMissing (table : String) (cols : Finset String)
  | weightsMissing (weightType : String) (names : Finset String)
  | weightsExtra (weightType : String) (names : Finset String)
  | py (e : PyError)
deriving DecidableEq

/-- The spec's `MissingTableError`: realized in the source as the
`TemplateError` raised with the message `Sheet <table> is missing`. -/
def MissingTableError (table : String) : ImpError := ImpError.missingSheet table

/-- A loaded dataframe, reduced to what the column checks inspect: its
column names in order, and the subset of columns containing at least one
missing (NA) value. -/
structure DataF where
  columns : List String
  naColumns : List String
deriving DecidableEq, Repr

/-- `CaseImporter._check_data_columns`: fail when schema columns are
missing; warn about (and drop) extra columns; fail when a mandatory field
column contains a missing value. -/
def check_data_columns (validate : List String) (mandatory : Option (List String))
    (table : String) (to_check : DataF) : Except ImpError DataF :=
  let columns_with_na := to_check.naColumns
  let column_list := to_check.columns
  let missing_cols := validate.filter fun col => !column_list.contains col
  if !missing_cols.isEmpty then
    .error (.missingColumns table missing_cols)
  else
    let extra_cols := column_list.filter fun col => !validate.contains col
    let mandatoryHit : Finset String :=
      match mandatory with
      | some fields => columns_with_na.toFinset ∩ fields.toFinset
      | none => ∅
    if mandatoryHit.Nonempty then
      .error (.mandatoryMissing table mandatoryHit)
    else
      .ok { columns := column_list.filter fun col => !extra_cols.contains col,
            naColumns := columns_with_na.filter fun col => !extra_cols.contains col }

/-- `CaseImporter._create_dataframes_dict` as a transformer of the table
set: `ValueError` and `FileNotFoundError` from the loader are mapped to the
missing-sheet `TemplateError`, any other exception propagates unchanged, and
the table is added to the dictionary only after all its checks pass. -/
def create_dataframes_dict (validate : List String) (mandatory : Option (List String))
    (table : String) (dataframes_dict : List (String × DataF))
    (load : Except PyError DataF) : Except ImpError Unit × List (String × DataF) :=
  match load with
  | .error (.valueError _) => (.error (MissingTableError table), dataframes_dict)
  | .error (.fileNotFound _) => (.error (MissingTableError table), dataframes_dict)
  | .error (.otherError m) => (.error (.py (.otherError m)), dataframes_dict)
  | .ok table_data =>
    match check_data_columns validate mandatory table table_data with
    | .error e => (.error e, dataframes_dict)
    | .ok checked => (.ok (), dataframes_dict ++ [(table, checked)])

/-! ### Claim C6 -/

/-- C6: a lower-level not-found signal (`ValueError` for a missing workbook
sheet, `FileNotFoundError` for a missing per-table file) makes loading fail
with the missing-table error, leaving the table set unchanged, whereas any
other I/O failure propagates unchanged. -/
theorem C6_missing_table_mapped (validate : List String) (mandatory : Option (List String))
    (table : String) (dfs : List (String × DataF)) (m : String) :
    create_dataframes_dict validate mandatory table dfs (.error (.fileNotFound m)) =
      (.error (MissingTableError table), dfs) ∧
    create_dataframes_dict validate mandatory table dfs (.error (.valueError m)) =
      (.error (MissingTableError table), dfs) ∧
    create_dataframes_dict validate mandatory table dfs (.error (.otherError m)) =
      (.error (.py (.otherError m)), dfs) :=
  ⟨rfl, rfl, rfl⟩

/-! ### Claim C9 -/

/-- C9: loading and validating one table is atomic with respect to the
table set: on any error the dictionary is returned exactly as it was, and on
success the dictionary is the old one extended with the fully checked
table. -/
theorem C9_dataframes_dict_atomic (validate : List String) (mandatory : Option (List String))
    (table : String) (dfs : List (String × DataF)) (load : Except PyError DataF) :
    (∀ e : ImpError, (create_dataframes_dict validate mandatory table dfs load).1 = .error e →
      (create_dataframes_dict validate mandatory table dfs load).2 = dfs) ∧
    ((create_dataframes_dict validate mandatory table dfs load).1 = .ok () →
      ∃ raw checked, load = .ok raw ∧
        check_data_columns validate mandatory table raw = .ok checked ∧
        (create_dataframes_dict validate mandatory table dfs load).2 =
          dfs ++ [(table, checked)]) := by
  cases load with
  | error e =>
    cases e <;> exact ⟨fun _ _ => rfl, by intro h; simp [create_dataframes_dict] at h⟩
  | ok raw =>
    cases hc : check_data_columns validate mandatory table raw with
    | error e =>
      refine ⟨fun e' he' => ?_, fun h => ?_⟩
      · simp [create_dataframes_dict, hc]
      · simp [create_dataframes_dict, hc] at h
    | ok checked =>
      refine ⟨fun e' he' => ?_, fun _ => ⟨raw, checked, rfl, hc, ?_⟩⟩
      · simp [create_dataframes_dict, hc] at he'
      · simp [create_dataframes_dict, hc]

/-- C9 (witness): the theorem applied to a failing load over a concrete
dictionary: the dictionary is unchanged. -/
theorem C9_dataframes_dict_atomic_witness :
    (create_dataframes_dict ["a"] none "t" [("k", ⟨["a"], []⟩)]
        (.error (.otherError "io"))).2 = [("k", ⟨["a"], []⟩)] :=
  (C9_dataframes_dict_atomic ["a"] none "t" [("k", ⟨["a"], []⟩)]
      (.error (.otherError "io"))).1 (.py (.otherError "io")) rfl

/-! ### Pivoting of the decision-makers-options and scenarios tables -/

/-- One row of a pivotable table: the option-or-scenario name (the pivot
index), the variable-input name (the pivot column) and the declared value. -/
structure PivotRow where
  index : String
  column : String
  value : Int
deriving DecidableEq, Repr

/-- Lexicographic comparison of character lists by code point. -/
def charsLe : List Char → List Char → Bool
  | [], _ => true
  | _ :: _, [] => false
  | a :: as, b :: bs =>
    if a.toNat < b.toNat then true
    else if b.toNat < a.toNat then false
    else charsLe as bs

/-- Lexicographic string comparison (the ascending order in which pandas
`pivot` and `np.unique` arrange labels). -/
def strLe (a b : String) : Bool := charsLe a.data b.data

def strInsert (x : String) : List String → List String
  | [] => [x]
  | y :: ys => if strLe x y then x :: y :: ys else y :: strInsert x ys

def strSort : List String → List String
  | [] => []
  | x :: xs => strInsert x (strSort xs)

/-- The sorted unique labels pandas `pivot` produces on each axis. -/
def uniqueSorted (l : List String) : List String := strSort l.dedup

/-- The cell pandas `pivot` places at a given (index, column) coordinate:
the declared value, or `none` (NaN) when no row declares one. -/
def pivotCell (rows : List PivotRow) (i c : String) : Option Int :=
  (rows.find? fun r => r.index == i && r.column == c).map (·.value)

def pivotIndexNames (rows : List PivotRow) : List String :=
  uniqueSorted (rows.map (·.index))

def pivotColumnNames (rows : List PivotRow) : List String :=
  uniqueSorted (rows.map (·.column))

/-- `CaseImporter._convert_to_numpy_arrays_2d`'s stored matrix
`pivoted_data.values`: `data.pivot(...)` with no `fillna`, so an (index,
column) combination no row declares stays NaN (`none`). -/
def convert_to_numpy_arrays_2d_value (rows : List PivotRow) : List (List (Option Int)) :=
  (pivotIndexNames rows).map fun i => (pivotColumnNames rows).map fun c => pivotCell rows i c

/-- Follows the spec's words (and the source's own comment `BUSINESS RULE:
Replace missing combination by zero`): the same matrix with every
undeclared combination filled with zero. -/
def pivot_value_zero_filled (rows : List PivotRow) : List (List Int) :=
  (pivotIndexNames rows).map fun i =>
    (pivotColumnNames rows).map fun c => (pivotCell rows i c).getD 0

/-! ### Claim C5 -/

/-- A decision-makers-options table in which option "opt2" declares no
value for variable input "iv2". -/
def c5Rows : List PivotRow :=
  [⟨"opt1", "iv1", 5⟩, ⟨"opt1", "iv2", 6⟩, ⟨"opt2", "iv1", 7⟩]

/-- C5 (code bug): the materialized value matrix leaves the undeclared
combination ("opt2", "iv2") as NaN (`none`) because `data.pivot` is stored
without any zero fill, contradicting both the claim and the source's own
`BUSINESS RULE: Replace missing combination by zero` comment; the
spec-modelled zero-filled matrix differs at exactly that cell. -/
theorem C5_missing_combination_is_nan_not_zero :
    convert_to_numpy_arrays_2d_value c5Rows = [[some 5, some 6], [some 7, none]] ∧
    pivot_value_zero_filled c5Rows = [[5, 6], [7, 0]] ∧
    pivotCell c5Rows "opt2" "iv2" = none := by
  refine ⟨?_, ?_, rfl⟩ <;> decide

/-! ### Weight-set validation -/

/-- `CaseImporter._validate_weights` for one weight family: the set of
names of the owning table must equal the set of names in the weight sheet;
each direction of the difference fails with an error carrying exactly the
differing names. -/
def validate_weights (owning weight_sheet : List String) (weight_type : String) :
    Except ImpError Unit :=
  let left := owning.toFinset
  let right := weight_sheet.toFinset
  if (left \ right).Nonempty then .error (.weightsMissing weight_type (left \ right))
  else if (right \ left).Nonempty then .error (.weightsExtra weight_type (right \ left))
  else .ok ()

/-- The weight checks of `CaseImporter._validate_dataframes`: the three
families, checked in order key_output, theme, scenario, fail-fast. -/
def validate_weights_all (key_output_names theme_col scenario_names
    key_output_weight_names theme_weight_names scenario_weight_names : List String) :
    Except ImpError Unit :=
  match validate_weights key_output_names key_output_weight_names "key_output" with
  | .error e => .error e
  | .ok _ =>
    match validate_weights theme_col theme_weight_names "theme" with
    | .error e => .error e
    | .ok _ => validate_weights scenario_names scenario_weight_names "scenario"

theorem validate_weights_ok_iff (owning weight_sheet : List String) (weight_type : String) :
    validate_weights owning weight_sheet weight_type = .ok () ↔
      owning.toFinset = weight_sheet.toFinset := by
  unfold validate_weights
  by_cases h1 : (owning.toFinset \ weight_sheet.toFinset).Nonempty
  · simp only [h1, if_true]
    constructor
    · intro h; cases h
    · intro h
      rw [h] at h1
      simp at h1
  · by_cases h2 : (weight_sheet.toFinset \ owning.toFinset).Nonempty
    · simp only [h1, h2, if_false, if_true]
      constructor
      · intro h; cases h
      · intro h
        rw [h] at h2
        simp at h2
    · simp only [h1, h2, if_false]
      rw [Finset.not_nonempty_iff_eq_empty, Finset.sdiff_eq_empty_iff_subset] at h1 h2
      simp [Finset.Subset.antisymm h1 h2]

/-! ### Claim C7 -/

/-- C7: for each weight family, validation fails with an error naming
exactly the differing names whenever the owning table's name-set differs
from the weight sheet's name-set, in either direction, and the combined
check of the three families succeeds exactly when all three name-sets
match. -/
theorem C7_weight_name_sets (owning weight_sheet : List String) (weight_type : String)
    (ko th sc kow thw scw : List String) :
    (validate_weights owning weight_sheet weight_type = .ok () ↔
      owning.toFinset = weight_sheet.toFinset) ∧
    ((owning.toFinset \ weight_sheet.toFinset).Nonempty →
      validate_weights owning weight_sheet weight_type =
        .error (.weightsMissing weight_type (owning.toFinset \ weight_sheet.toFinset))) ∧
    (¬ (owning.toFinset \ weight_sheet.toFinset).Nonempty →
      (weight_sheet.toFinset \ owning.toFinset).Nonempty →
      validate_weights owning weight_sheet weight_type =
        .error (.weightsExtra weight_type (weight_sheet.toFinset \ owning.toFinset))) ∧
    (validate_weights_all ko th sc kow thw scw = .ok () ↔
      (ko.toFinset = kow.toFinset ∧ th.toFinset = thw.toFinset ∧
        sc.toFinset = scw.toFinset)) := by
  refine ⟨validate_weights_ok_iff _ _ _, fun h1 => ?_, fun h1 h2 => ?_, ?_⟩
  · simp [validate_weights, h1]
  · simp [validate_weights, h1, h2]
  · unfold validate_weights_all
    cases hko : validate_weights ko kow "key_output" with
    | error e =>
      have : ¬ ko.toFinset = kow.toFinset := by
        rw [← validate_weights_ok_iff ko kow "key_output", hko]
        simp
      simp [this]
    | ok u =>
      cases u
      have hkoeq : ko.toFinset = kow.toFinset :=
        (validate_weights_ok_iff ko kow "key_output").mp hko
      cases hth : validate_weights th thw "theme" with
      | error e =>
        have : ¬ th.toFinset = thw.toFinset := by
          rw [← validate_weights_ok_iff th thw "theme", hth]
          simp
        simp [hkoeq, this]
      | ok u =>
        cases u
        have htheq : th.toFinset = thw.toFinset :=
          (validate_weights_ok_iff th thw "theme").mp hth
        rw [validate_weights_ok_iff sc scw "scenario"]
        simp [hkoeq, htheq]

/-- C7 (witness): the theorem applied to a key-output table whose weight
sheet misses the name "a": validation fails naming exactly that name. -/
theorem C7_weight_name_sets_witness :
    ((["a", "b"] : List String).toFinset \ (["b"] : List String).toFinset).Nonempty ∧
    validate_weights ["a", "b"] ["b"] "key_output" =
      .error (.weightsMissing "key_output"
        ((["a", "b"] : List String).toFinset \ (["b"] : List String).toFinset)) :=
  ⟨by decide,
    (C7_weight_name_sets ["a", "b"] ["b"] "key_output" [] [] [] [] [] []).2.1 (by decide)⟩

/-! ### Relative weights -/

/-- Lookup in a Python `dict(zip(keys, values))`: with duplicate keys the
last pair wins, so the association list is searched from the right. -/
def dict_last {α : Type} (pairs : List (String × α)) (k : String) : Option α :=
  (pairs.reverse.find? fun p => p.1 == k).map (·.2)

/-- `np.unique(key_output_theme, return_counts=True)` zipped into
`theme_count_dict`: one pair per distinct theme with its number of
occurrences (`np.unique` sorts its output, which is irrelevant to the
dictionary built from it, so the distinct themes are kept in list order). -/
def theme_count_pairs (key_output_theme : List String) : List (String × Nat) :=
  key_output_theme.dedup.map fun t => (t, key_output_theme.count t)

/-- `CaseImporter._convert_to_relative_weights`: per key output, the raw
weight unchanged when the key output is alone in its theme, otherwise the
raw weight divided by the theme's key-output count times the theme's
weight; a failed dictionary lookup (Python `KeyError`) is `none`. -/
def convert_to_relative_weights (key_output_theme : List String)
    (key_output_weight : List ℚ) (themes : List String) (theme_weight : List ℚ) :
    List (Option ℚ) :=
  let theme_count_dict := theme_count_pairs key_output_theme
  let theme_weight_dict := themes.zip theme_weight
  (key_output_theme.zip key_output_weight).map fun p =>
    match dict_last theme_count_dict p.1 with
    | none => none
    | some c =>
      if c == 1 then some p.2
      else
        match dict_last theme_weight_dict p.1 with
        | none => none
        | some w => some (p.2 / (c : ℚ) * w)

theorem find_assoc_val {α : Type} (g : String → α) (k : String) :
    ∀ ks : List String, k ∈ ks →
      (ks.map fun t => (t, g t)).find? (fun p => p.1 == k) = some (k, g k)
  | [], h => absurd h (List.not_mem_nil k)
  | t :: ts, h => by
    cases ht : (t == k) with
    | true =>
      have heq : t = k := by simpa using ht
      subst heq
      simp [List.find?_cons_of_pos]
    | false =>
      have hk : k ∈ ts := by
        rcases List.mem_cons.mp h with rfl | h2
        · simp at ht
        · exact h2
      rw [List.map_cons, List.find?_cons]
      simp only [ht]
      exact find_assoc_val g k ts hk

theorem dict_last_map {α : Type} (g : String → α) (ks : List String) (k : String)
    (h : k ∈ ks) :
    dict_last (ks.map fun t => (t, g t)) k = some (g k) := by
  unfold dict_last
  rw [← List.map_reverse, find_assoc_val g k ks.reverse (List.mem_reverse.mpr h)]
  rfl

theorem dict_last_theme_count (l : List String) (t : String) (ht : t ∈ l) :
    dict_last (theme_count_pairs l) t = some (l.count t) := by
  unfold theme_count_pairs
  exact dict_last_map (fun s => l.count s) l.dedup t (List.mem_dedup.mpr ht)

/-! ### Claim C8 -/

/-- C8: the derived relative-weight array is aligned with the key-output
order, and its entry for key output `i` equals the raw weight when the key
output is the sole member of its theme, and otherwise the raw weight
divided by the number of key outputs sharing the theme, multiplied by the
theme's weight. -/
theorem C8_relative_weights (key_output_theme : List String) (key_output_weight : List ℚ)
    (themes : List String) (theme_weight : List ℚ) (i : Nat) (tw : ℚ)
    (hi : i < key_output_theme.length) (hw : i < key_output_weight.length)
    (hlook : dict_last (themes.zip theme_weight) key_output_theme[i] = some tw) :
    (convert_to_relative_weights key_output_theme key_output_weight themes
        theme_weight).length = min key_output_theme.length key_output_weight.length ∧
    ∃ hj : i < (convert_to_relative_weights key_output_theme key_output_weight themes
        theme_weight).length,
      (convert_to_relative_weights key_output_theme key_output_weight themes
          theme_weight)[i] =
        some (if key_output_theme.count key_output_theme[i] = 1 then key_output_weight[i]
          else key_output_weight[i] /
            (key_output_theme.count key_output_theme[i] : ℚ) * tw) := by
  have hlen : (convert_to_relative_weights key_output_theme key_output_weight themes
      theme_weight).length = min key_output_theme.length key_output_weight.length := by
    simp [convert_to_relative_weights]
  have hj : i < (convert_to_relative_weights key_output_theme key_output_weight themes
      theme_weight).length := by
    rw [hlen]; omega
  refine ⟨hlen, hj, ?_⟩
  have hmem : key_output_theme[i] ∈ key_output_theme := List.getElem_mem hi
  have hcount := dict_last_theme_count key_output_theme key_output_theme[i] hmem
  simp only [convert_to_relative_weights, List.getElem_map, List.getElem_zip]
  rw [hcount]
  by_cases hc : key_output_theme.count key_output_theme[i] = 1
  · simp [hc]
  · have hcb : (key_output_theme.count key_output_theme[i] == 1) = false := by
      simpa using hc
    simp only [hcb, Bool.false_eq_true, if_false, if_neg hc, hlook]

/-- C8 (witness): the theorem applied to a concrete case in which key
output 1 shares its theme "t2" with one other key output: its relative
weight is 3 / 2 * 11. -/
theorem C8_relative_weights_witness :
    1 < (["t1", "t2", "t2"] : List String).length ∧
    1 < ([2, 3, 5] : List ℚ).length ∧
    dict_last ((["t1", "t2"] : List String).zip ([7, 11] : List ℚ)) "t2" = some 11 ∧
    ((convert_to_relative_weights ["t1", "t2", "t2"] [2, 3, 5] ["t1", "t2"]
        [7, 11]).length = min 3 3 ∧
     ∃ hj : 1 < (convert_to_relative_weights ["t1", "t2", "t2"] [2, 3, 5] ["t1", "t2"]
        [7, 11]).length,
      (convert_to_relative_weights ["t1", "t2", "t2"] [2, 3, 5] ["t1", "t2"] [7, 11])[1] =
        some (if (["t1", "t2", "t2"] : List String).count "t2" = 1 then (3 : ℚ)
          else 3 / ((["t1", "t2", "t2"] : List String).count "t2" : ℚ) * 11)) :=
  ⟨by decide, by decide, by decide,
    C8_relative_weights ["t1", "t2", "t2"] [2, 3, 5] ["t1", "t2"] [7, 11] 1 11
      (by decide) (by decide) (by decide)⟩

/-! ### The dependencies dataframe and the input dictionary -/

/-- The dependencies dataframe as stored in `dataframes_dict`: its rows with
their pandas index, plus the `hierarchy` column if one has been added (the
stored frame initially has none). -/
structure DepsFrame where
  rows : List (Nat × DepRow)
  hierarchyCol : Option (List Int)
deriving DecidableEq, Repr

def seedFrame (all_inputs : List String) (df : DepsFrame) : List SRow :=
  df.rows.map fun p => ⟨p.1, p.2, apply_first_level_hierarchy_to_row all_inputs p.2⟩

/-- `_convert_to_ordered_dependencies` acting on the dataframe it is given:
it returns that frame as left mutated by the hierarchy computation (a
`hierarchy` column has been assigned, in original row order — the final
`sort_values` rebinds a local name and does not reorder the frame object)
together with the sorted rows whose columns are stored into the input
dictionary. -/
def convert_to_ordered_dependencies_frame (all_inputs : List String) (df : DepsFrame)
    (fuel : Nat) : Option (DepsFrame × List SRow) :=
  let data := seedFrame all_inputs df
  (refineLoop fuel data (data.filter fun r => r.hierarchy != 1)).map fun res =>
    ({ rows := df.rows, hierarchyCol := some (res.map (·.hierarchy)) }, hSort res)

/-- The importer state relevant to the dependencies table: the collected
input names, the stored dependencies dataframe, and the dependency-related
entries of the input dictionary. -/
structure ImporterState where
  all_inputs : List String
  dependencies : DepsFrame
  input_deps : Option (List SRow)
deriving DecidableEq, Repr

/-- The dependencies branch of `CaseImporter._create_input_dict`:
`self._convert_to_ordered_dependencies(data.copy())` — the conversion runs
on a copy of the stored dataframe, the mutated copy is dropped, and only
the sorted arrays enter the input dictionary. -/
def create_input_dict_deps (s : ImporterState) (fuel : Nat) : Option ImporterState :=
  (convert_to_ordered_dependencies_frame s.all_inputs s.dependencies fuel).map fun p =>
    { s with input_deps := some p.2 }

/-! ### Claim C10 -/

/-- C10: the hierarchy computation operates on a copy: after the
dependencies branch of `_create_input_dict` completes, the stored
dependencies dataframe is exactly as before (same rows in declaration
order, and still without a `hierarchy` column when it had none), even
though the copy the conversion mutated did acquire a `hierarchy` column;
only the input dictionary receives the sorted rows. -/
theorem C10_dependencies_frame_unchanged (s : ImporterState) (fuel : Nat)
    (s2 : ImporterState) (h : create_input_dict_deps s fuel = some s2) :
    s2.dependencies = s.dependencies ∧
    (s.dependencies.hierarchyCol = none → s2.dependencies.hierarchyCol = none) ∧
    ∃ mutated sorted,
      convert_to_ordered_dependencies_frame s.all_inputs s.dependencies fuel =
        some (mutated, sorted) ∧
      mutated.hierarchyCol.isSome = true ∧ mutated.rows = s.dependencies.rows ∧
      s2.input_deps = some sorted ∧ s2.all_inputs = s.all_inputs := by
  have hconv : convert_to_ordered_dependencies_frame s.all_inputs s.dependencies fuel =
      (refineLoop fuel (seedFrame s.all_inputs s.dependencies)
        ((seedFrame s.all_inputs s.dependencies).filter fun r => r.hierarchy != 1)).map
        (fun res =>
          ({ rows := s.dependencies.rows,
             hierarchyCol := some (res.map (·.hierarchy)) }, hSort res)) := rfl
  unfold create_input_dict_deps at h
  cases hres : refineLoop fuel (seedFrame s.all_inputs s.dependencies)
      ((seedFrame s.all_inputs s.dependencies).filter fun r => r.hierarchy != 1) with
  | none =>
    rw [hconv, hres] at h
    simp at h
  | some res =>
    rw [hconv, hres] at h
    simp only [Option.map_some'] at h
    cases h
    exact ⟨rfl, fun hh => hh,
      ⟨s.dependencies.rows, some (res.map (·.hierarchy))⟩, hSort res,
      by rw [hconv, hres]; rfl, rfl, rfl, rfl, rfl⟩

/-- C10 (witness): the theorem applied to the chain table stored without a
hierarchy column. -/
theorem C10_dependencies_frame_unchanged_witness :
    create_input_dict_deps ⟨chainInputs, ⟨[(0, chainA), (1, chainB), (2, chainC)], none⟩,
        none⟩ 4 =
      some ⟨chainInputs, ⟨[(0, chainA), (1, chainB), (2, chainC)], none⟩, some chainOut⟩ ∧
    ((⟨chainInputs, ⟨[(0, chainA), (1, chainB), (2, chainC)], none⟩,
          some chainOut⟩ : ImporterState).dependencies =
        (⟨chainInputs, ⟨[(0, chainA), (1, chainB), (2, chainC)], none⟩,
          none⟩ : ImporterState).dependencies ∧
      ((⟨chainInputs, ⟨[(0, chainA), (1, chainB), (2, chainC)], none⟩,
          none⟩ : ImporterState).dependencies.hierarchyCol = none →
        (⟨chainInputs, ⟨[(0, chainA), (1, chainB), (2, chainC)], none⟩,
          some chainOut⟩ : ImporterState).dependencies.hierarchyCol = none) ∧
      ∃ mutated sorted,
        convert_to_ordered_dependencies_frame
            (⟨chainInputs, ⟨[(0, chainA), (1, chainB), (2, chainC)], none⟩,
              none⟩ : ImporterState).all_inputs
            (⟨chainInputs, ⟨[(0, chainA), (1, chainB), (2, chainC)], none⟩,
              none⟩ : ImporterState).dependencies 4 = some (mutated, sorted) ∧
        mutated.hierarchyCol.isSome = true ∧
        mutated.rows = (⟨chainInputs, ⟨[(0, chainA), (1, chainB), (2, chainC)], none⟩,
          none⟩ : ImporterState).dependencies.rows ∧
        (⟨chainInputs, ⟨[(0, chainA), (1, chainB), (2, chainC)], none⟩,
          some chainOut⟩ : ImporterState).input_deps = some sorted ∧
        (⟨chainInputs, ⟨[(0, chainA), (1, chainB), (2, chainC)], none⟩,
          some chainOut⟩ : ImporterState).all_inputs =
          (⟨chainInputs, ⟨[(0, chainA), (1, chainB), (2, chainC)], none⟩,
            none⟩ : ImporterState).all_inputs) :=
  ⟨by decide,
    C10_dependencies_frame_unchanged
      ⟨chainInputs, ⟨[(0, chainA), (1, chainB), (2, chainC)], none⟩, none⟩ 4
      ⟨chainInputs, ⟨[(0, chainA), (1, chainB), (2, chainC)], none⟩, some chainOut⟩
      (by decide)⟩

/-- C4 (witness): the amended theorem applied to the seeded chain table,
whose row B is recomputed to the subset minimum 2 and finalized. -/
theorem C4_iteration_removes_minimum_witness :
    (⟨1, chainB, 2⟩ : SRow) ∈
      refineStep [⟨0, chainA, 1⟩, ⟨1, chainB, 2⟩, ⟨2, chainC, 2⟩]
        [⟨1, chainB, 2⟩, ⟨2, chainC, 2⟩] ∧
    (⟨1, chainB, 2⟩ : SRow).hierarchy ≤ minH ⟨1, chainB, 2⟩ [⟨2, chainC, 2⟩] ∧
    ((⟨1, chainB, 2⟩ : SRow) ∉
      (refineStep [⟨0, chainA, 1⟩, ⟨1, chainB, 2⟩, ⟨2, chainC, 2⟩]
          [⟨1, chainB, 2⟩, ⟨2, chainC, 2⟩]).filter
        (fun q => decide (minH ⟨1, chainB, 2⟩ [⟨2, chainC, 2⟩] < q.hierarchy)) ∧
     (∀ i (hi : i < ([⟨0, chainA, 1⟩, ⟨1, chainB, 2⟩, ⟨2, chainC, 2⟩] : List SRow).length)
        (hj : i < (refineStep [⟨0, chainA, 1⟩, ⟨1, chainB, 2⟩, ⟨2, chainC, 2⟩]
          [⟨1, chainB, 2⟩, ⟨2, chainC, 2⟩]).length),
        ([⟨0, chainA, 1⟩, ⟨1, chainB, 2⟩, ⟨2, chainC, 2⟩] : List SRow)[i].hierarchy ≤
          (refineStep [⟨0, chainA, 1⟩, ⟨1, chainB, 2⟩, ⟨2, chainC, 2⟩]
            [⟨1, chainB, 2⟩, ⟨2, chainC, 2⟩])[i].hierarchy) ∧
     refineLoop 3 [⟨0, chainA, 1⟩, ⟨1, chainB, 2⟩, ⟨2, chainC, 2⟩]
        [⟨1, chainB, 2⟩, ⟨2, chainC, 2⟩] =
      refineLoop 2 (refineStep [⟨0, chainA, 1⟩, ⟨1, chainB, 2⟩, ⟨2, chainC, 2⟩]
          [⟨1, chainB, 2⟩, ⟨2, chainC, 2⟩])
        ((refineStep [⟨0, chainA, 1⟩, ⟨1, chainB, 2⟩, ⟨2, chainC, 2⟩]
            [⟨1, chainB, 2⟩, ⟨2, chainC, 2⟩]).filter
          (fun q => decide (minH ⟨1, chainB, 2⟩ [⟨2, chainC, 2⟩] < q.hierarchy)))) :=
  ⟨by decide, by decide,
    C4_iteration_removes_minimum 2 [⟨0, chainA, 1⟩, ⟨1, chainB, 2⟩, ⟨2, chainC, 2⟩]
      ⟨1, chainB, 2⟩ [⟨2, chainC, 2⟩] ⟨1, chainB, 2⟩ (by decide) (by decide)⟩

end Trbs
